import Mathlib

/-!
Verification model of the `cli` library (a C++ header-only interactive
command-line engine, `include/cli/cli.h`) and of its history component.

The command tree (`Command`, `Menu`, `CmdHandler`, `CliSession::Feed`) is
embedded from `include/cli/cli.h`.  The history component lives in
`include/cli/history.h`, which is not among the provided sources (only its
unit tests `test/test_history.cpp` are); it is modelled from the
specification (§4.3) and validated against every assertion of those tests.
Strings are manipulated through their character lists so that all
definitions evaluate by kernel reduction.
-/

namespace cli

/-- Modelled from the spec (§4.3): the state of `cli::detail::History` from
`history.h`, which is absent from the provided sources.  `entries` holds the
retained lines oldest first.  `cursor = none` means "past the end" (no
navigation in progress); while navigating (`cursor = some i`) the last
element of `entries` is the in-progress edit slot, realising the spec's
conceptual "entries + in-progress edit" sequence.  `newCount` counts the
entries stored by `NewCommand` since construction; `GetCommands` returns
only those (the `Copies` unit test fixes that entries seeded by
`LoadCommands` are not returned). -/
structure History where
  capacity : Nat
  entries : List String
  cursor : Option Nat
  newCount : Nat
deriving DecidableEq

/-- Construct an empty history of the given capacity. -/
def mkHistory (cap : Nat) : History := ⟨cap, [], none, 0⟩

/-- Append one entry, evicting from the front when the capacity is
exceeded (the spec's "if this exceeds capacity, evict from the front"). -/
def insertEntry (cap : Nat) (l : List String) (item : String) : List String :=
  let l2 := l ++ [item]
  if cap < l2.length then l2.drop (l2.length - cap) else l2

/-- Modelled from the spec (§4.3 `NewCommand`): if the text is non-empty and
differs from the most recently stored entry, append it, evicting from the
front past capacity; always reset the cursor to past-the-end.  If a
navigation was in progress, the edit slot (last element) is first dropped:
"spliced values are not permanently retained past the point `NewCommand`
normalizes state". -/
def History.NewCommand (h : History) (item : String) : History :=
  let es := match h.cursor with
    | some _ => h.entries.dropLast
    | none => h.entries
  if item = "" then ⟨h.capacity, es, none, h.newCount⟩
  else if es.getLast? = some item then ⟨h.capacity, es, none, h.newCount⟩
  else ⟨h.capacity, insertEntry h.capacity es item, none, h.newCount + 1⟩

/-- Modelled from the spec (§4.3 `Previous`): from past-the-end, append the
current edit text as the edit slot (evicting past capacity) and move to the
last stored entry; from index `i > 0`, splice the edit text into the slot
being left and move to `i - 1`; at index 0 return the oldest entry
unchanged; on an empty history return the empty string. -/
def History.Previous (h : History) (line : String) : History × String :=
  match h.cursor with
  | none =>
      if h.entries = [] then (h, "")
      else
        let es := insertEntry h.capacity h.entries line
        let i := es.length - 2
        (⟨h.capacity, es, some i, h.newCount⟩, es.getD i "")
  | some i =>
      if i = 0 then (h, h.entries.getD 0 "")
      else
        let es := h.entries.set i line
        (⟨h.capacity, es, some (i - 1), h.newCount⟩, es.getD (i - 1) "")

/-- Modelled from the spec (§4.3 `Next`): past-the-end yields the empty
string; otherwise move one step toward the end, returning the entry now
pointed to; stepping past the conceptual sequence yields the empty
string. -/
def History.Next (h : History) : History × String :=
  match h.cursor with
  | none => (h, "")
  | some i =>
      if i + 1 < h.entries.length then
        (⟨h.capacity, h.entries, some (i + 1), h.newCount⟩, h.entries.getD (i + 1) "")
      else (h, "")

/-- Modelled from the spec (§4.3 `LoadCommands`): seeds the stored entries
(bounded by capacity) without touching the navigation state and without
counting the seeded entries as `NewCommand`-stored ones. -/
def History.LoadCommands (h : History) (cmds : List String) : History :=
  ⟨h.capacity, cmds.foldl (insertEntry h.capacity) h.entries, h.cursor, h.newCount⟩

/-- Modelled from the spec (§4.3 `GetCommands`), with the `Copies` unit test
fixing the behaviour: of the retained entries (edit slot excluded while a
navigation is in progress), return the most recent `newCount` ones, oldest
first. -/
def History.GetCommands (h : History) : List String :=
  let base := match h.cursor with
    | some _ => h.entries.dropLast
    | none => h.entries
  base.drop (base.length - min h.newCount base.length)

/-- The last `c` elements of a list (all of it when it is shorter). -/
def lastN (c : Nat) (l : List String) : List String := l.drop (l.length - c)

/-- Check whether `p` is an initial segment of `s`, working on character
lists (`line.rfind(name, 0) == 0` in cli.h). -/
def strBegins (p s : String) : Bool := p.toList.isPrefixOf s.toList

/-- Drop the first `n` characters of a string (`line.erase(0, n)`). -/
def strDrop (s : String) (n : Nat) : String := String.mk (s.toList.drop n)

/-- Remove leading whitespace (the `find_if`-based erase of cli.h:525). -/
def strTrimLeft (s : String) : String :=
  String.mk (s.toList.dropWhile Char.isWhitespace)

/-- Number of characters of a string. -/
def strLen (s : String) : Nat := s.toList.length

/-- Command-tree node of cli.h.  `leaf` embeds `VariadicFunctionCommand`
(cli.h:851-905): its fields are the command name, the `enabled` flag of the
`Command` base class, the declared parameter count `sizeof...(Args)`, the
argument-conversion predicate `conv` standing for the chain of
`boost::lexical_cast` calls performed by `Select` (`conv args = true` iff
every cast succeeds), the description, and the explicit parameter
descriptors.  `menu` embeds `Menu` (cli.h:389-566) with its name, enabled
flag, description flag and ordered child collection (the compile-time
`TypeDesc`-based rendering of parameter types, the bound action bodies and
the output stream are out of the modelled core). -/
inductive Cmd where
  | leaf (name : String) (enabled : Bool) (nargs : Nat)
         (conv : List String → Bool) (desc : String) (parDescs : List String)
  | menu (name : String) (enabled : Bool) (desc : String) (children : List Cmd)

/-- Name of a node (`Command::Name`). -/
def Cmd.name : Cmd → String
  | .leaf n _ _ _ _ _ => n
  | .menu n _ _ _ => n

/-- Enabled flag of a node (`Command::IsEnabled`). -/
def Cmd.enabled : Cmd → Bool
  | .leaf _ e _ _ _ _ => e
  | .menu _ e _ _ => e

/-- Set the enabled flag (`Command::Enable` / `Command::Disable`; neither
`Menu` nor `VariadicFunctionCommand` overrides them). -/
def Cmd.setEnabled : Cmd → Bool → Cmd
  | .leaf n _ k cv d pd, b => .leaf n b k cv d pd
  | .menu n _ d cs, b => .menu n b d cs

mutual
/-- Dispatch, `Command::Exec`.  `c` is the node, `p` its path (list of child
indices) from the tree root, `line` the token list and `cur` the session's
current-menu path.  `none` models a `false` return (session untouched);
`some q` models `true` with the session's current menu left at path `q`.
The leaf case is `VariadicFunctionCommand::Exec` (cli.h:869-888): enabled
check, then token count against `paramSize + 1`, then name against the
first token, then argument conversion, whose failure (the caught
`bad_lexical_cast`) also reports not matched.  The menu case is
`Menu::Exec` (cli.h:458-477): when enabled and the first token equals the
name, a single-token line selects this menu as the session's current menu,
and a longer line offers the remaining tokens to each child in insertion
order. -/
def Cmd.execAt (c : Cmd) (p : List Nat) (line : List String) (cur : List Nat) :
    Option (List Nat) :=
  match c with
  | .leaf n e k conv _ _ =>
      if e = true ∧ line.length = k + 1 ∧ line.head? = some n ∧ conv line.tail = true
      then some cur else none
  | .menu n e _ cs =>
      if e = true ∧ line.head? = some n then
        if line.length = 1 then some p
        else Cmd.execList cs 0 p line.tail cur
      else none

/-- The child loop of `Menu::Exec`: try each child in insertion order,
child `k` living at path `p ++ [i + k]`, and stop at the first match. -/
def Cmd.execList (cs : List Cmd) (i : Nat) (p : List Nat) (line : List String)
    (cur : List Nat) : Option (List Nat) :=
  match cs with
  | [] => none
  | c :: rest =>
      match Cmd.execAt c (p ++ [i]) line cur with
      | some q => some q
      | none => Cmd.execList rest (i + 1) p line cur
end

/-- Child of a node by index. -/
def Cmd.childAt (c : Cmd) (i : Nat) : Option Cmd :=
  match c with
  | .menu _ _ _ cs => cs[i]?
  | _ => none

/-- Node of the tree at the given path of child indices. -/
def Cmd.nodeAt (c : Cmd) : List Nat → Option Cmd
  | [] => some c
  | i :: is =>
      match c.childAt i with
      | some ch => ch.nodeAt is
      | none => none

/-- Scan-from-current, `Menu::ScanCmds` (cli.h:479-486) of the menu at path
`cur` of `root`: when that menu is enabled, try each of its immediate
children against the full token list, and if none matches delegate the same
list to the parent menu's `Exec`; the root (`cur = []`) has no parent. -/
def scanAt (root : Cmd) (cur : List Nat) (line : List String) (cur0 : List Nat) :
    Option (List Nat) :=
  match root.nodeAt cur with
  | some (.menu _ e _ cs) =>
      if e = true then
        match Cmd.execList cs 0 cur line cur0 with
        | some q => some q
        | none =>
            match cur with
            | [] => none
            | _ :: _ =>
                match root.nodeAt cur.dropLast with
                | some pm => Cmd.execAt pm cur.dropLast line cur0
                | none => none
      else none
  | _ => none

mutual
/-- Completion, `Command::GetCompletionRecursive` (cli.h:240-245) for
leaves: when enabled and the name starts with the partial line, offer the
name.  For menus, the override of cli.h:518-536: when the line starts with
the menu's own name, strip the name and the following whitespace and offer
every child completion of the remainder behind `"name "` — note that this
branch of the source performs no enabled check — otherwise fall back to the
leaf behaviour. -/
def Cmd.GetCompletionRecursive (c : Cmd) (line : String) : List String :=
  match c with
  | .leaf n e _ _ _ _ =>
      if e = true ∧ strBegins line n = true then [n] else []
  | .menu n e _ cs =>
      if strBegins n line then
        Cmd.gcrList n cs (strTrimLeft (strDrop line (strLen n)))
      else
        if e = true ∧ strBegins line n = true then [n] else []

/-- The child loop of `Menu::GetCompletionRecursive`: concatenate the
children's completions for the remainder, each prefixed with the menu
name and a space. -/
def Cmd.gcrList (n : String) (cs : List Cmd) (rest : String) : List String :=
  match cs with
  | [] => []
  | c :: rest' =>
      (Cmd.GetCompletionRecursive c rest).map (fun s => n ++ " " ++ s)
        ++ Cmd.gcrList n rest' rest
end

/-- Help output of one node as the list of emitted blocks.
`Menu::Help` (cli.h:501-505) and `VariadicFunctionCommand::Help`
(cli.h:889-898) both emit nothing when the node is disabled; otherwise one
block with the name, the rendered parameter descriptors and the
description. -/
def Cmd.Help : Cmd → List String
  | .leaf n e _ _ d pds =>
      if e = true then
        [" - " ++ n ++ String.join (pds.map (fun s => " <" ++ s ++ ">"))
          ++ "\n\t" ++ d ++ "\n"]
      else []
  | .menu n e d _ =>
      if e = true then [" - " ++ n ++ "\n\t" ++ d ++ "\n"] else []

/-- Help enumeration, `Menu::MainHelp` (cli.h:493-499) of the menu at path
`cur` of `root`: nothing when disabled, else every child's help followed by
the parent's help line. -/
def mainHelpAt (root : Cmd) (cur : List Nat) : List String :=
  match root.nodeAt cur with
  | some (.menu _ e _ cs) =>
      if e = true then
        (cs.map Cmd.Help).flatten ++
          (match cur with
           | [] => []
           | _ :: _ =>
               match root.nodeAt cur.dropLast with
               | some pm => pm.Help
               | none => [])
      else []
  | _ => []

/-- Entry of a child collection, tagged with the identity of the
`shared_ptr<Command>` that owns the node; `CmdHandler`'s weak references
are modelled by this identity. -/
structure HEntry where
  id : Nat
  node : Cmd

/-- Collection state seen by a `CmdHandler`: `none` models an owning child
collection that has been destroyed (its `weak_ptr` no longer locks). -/
def HColl := Option (List HEntry)

/-- Handle operation `CmdHandler::Enable` / `Disable` (cli.h:346-365): if
the node still exists (its identity is present in a live collection), flip
its flag; otherwise do nothing. -/
def hSetEnabled (coll : HColl) (hid : Nat) (b : Bool) : HColl :=
  match coll with
  | none => none
  | some l =>
      some (l.map (fun e => if e.id = hid then ⟨e.id, e.node.setEnabled b⟩ else e))

/-- Erase the first entry with the given identity (`std::find_if` followed
by `erase` in `CmdHandler::Descriptor::Remove`, cli.h:366-380). -/
def removeFirst : List HEntry → Nat → List HEntry
  | [], _ => []
  | e :: es, hid => if e.id = hid then es else e :: removeFirst es hid

/-- Handle operation `CmdHandler::Remove` (cli.h:348, 366-380): if both the
node and its owning collection still exist, erase the node from the
collection; otherwise do nothing. -/
def hRemove (coll : HColl) (hid : Nat) : HColl :=
  match coll with
  | none => none
  | some l => if (l.find? (fun e => e.id = hid)).isSome
              then some (removeFirst l hid) else some l

/-- Modelled from the spec (§6 line syntax, §4.4): `cli::detail::split`
from `split.h`, which is absent from the provided sources — whitespace
tokenization of the raw line into maximal non-whitespace runs. -/
def tokensAux : List Char → List Char → List String
  | [], acc => if acc = [] then [] else [String.mk acc.reverse]
  | c :: cs, acc =>
      if c.isWhitespace then
        if acc = [] then tokensAux cs []
        else String.mk acc.reverse :: tokensAux cs []
      else tokensAux cs (c :: acc)

/-- Modelled from the spec: the token list `detail::split` produces from a
raw input line. -/
def splitTokens (s : String) : List String := tokensAux s.toList []

/-- State of a `CliSession` as far as `Feed` observes it: the current-menu
path into the root tree, the private history, and the lines written to the
session's output. -/
structure SessionState where
  cur : List Nat
  hist : History
  out : List String
deriving DecidableEq

/-- Dispatch part of `CliSession::Feed` (cli.h:947-956), reached only with
a non-empty token list: record the raw line in the history, scan the
global-scope menu `glob`, then the current menu of `root`, and report an
unknown command on the session output when neither matched. -/
def feedTokens (glob root : Cmd) (st : SessionState) (cmd : String)
    (strs : List String) : SessionState :=
  let h2 := st.hist.NewCommand cmd
  match scanAt glob [] strs st.cur with
  | some c1 => ⟨c1, h2, st.out⟩
  | none =>
      match scanAt root st.cur strs st.cur with
      | some c2 => ⟨c2, h2, st.out⟩
      | none => ⟨st.cur, h2, st.out ++ ["Command unknown: " ++ cmd]⟩

/-- `CliSession::Feed` (cli.h:941-959): tokenize the raw line; when
tokenization yields nothing ("just hit enter") return with no side effect
at all, otherwise hand the tokens to the dispatch part. -/
def feed (glob root : Cmd) (st : SessionState) (cmd : String) : SessionState :=
  let strs := splitTokens cmd
  if strs = [] then st else feedTokens glob root st cmd strs

/-- Fixture: the leaf command `"cmd"` of the menu-tree scenario (a
zero-parameter command, whose argument conversion is vacuous). -/
def cmdLeaf : Cmd := .leaf "cmd" true 0 (fun _ => true) "" []

/-- Fixture: the menu `"sub"` containing `cmdLeaf`. -/
def subMenu : Cmd := .menu "sub" true "(menu)" [cmdLeaf]

/-- Fixture: the root menu containing `subMenu`. -/
def rootMenu : Cmd := .menu "root" true "(menu)" [subMenu]

/-- Fixture: a disabled menu `"sub"` with an enabled child `"cmd"`. -/
def disabledSub : Cmd := .menu "sub" false "(menu)" [cmdLeaf]

/-- Fixture for the history splice trace: `[item1, item2, item3, item4]`
in a capacity-10 history, cursor past the end. -/
def histC2 : History :=
  ((((mkHistory 10).NewCommand "item1").NewCommand "item2").NewCommand
    "item3").NewCommand "item4"

/-- First step of the splice trace. -/
def c2s1 : History × String := histC2.Previous ""

/-- Second step of the splice trace. -/
def c2s2 : History × String := c2s1.1.Previous "item4"

/-- Third step of the splice trace. -/
def c2s3 : History × String := c2s2.1.Previous "foo"

/-- Fourth step of the splice trace. -/
def c2s4 : History × String := c2s3.1.Next

/-- Fifth step of the splice trace. -/
def c2s5 : History × String := c2s4.1.Next

/-- Fixture: a history in which `Previous` has spliced the edit text `"a"`
next to an equal stored entry. -/
def histC8 : History :=
  (((((mkHistory 10).NewCommand "a").NewCommand "b").Previous "").1.Previous "a").1

/-- Fixture: a capacity-10 history seeded with three entries via
`LoadCommands` and then fed two entries via `NewCommand` (the `Copies`
unit test). -/
def histC9 : History :=
  (((mkHistory 10).LoadCommands ["item1", "item2", "item3"]).NewCommand
    "itemA").NewCommand "itemB"

/-- Navigation chain on `histC9` stepping back five times. -/
def c9nav : History × String :=
  ((((histC9.Previous "").1.Previous "itemB").1.Previous "itemA").1.Previous
    "item3").1.Previous "item2"

/-- Run a sequence of history operations, collecting the returned strings
(used to replay the traces of `test/test_history.cpp`). -/
def run (h : History) (ops : List (History → History × String)) :
    History × List String :=
  ops.foldl (fun (acc : History × List String) op =>
    let r := op acc.1
    (r.1, acc.2 ++ [r.2])) (h, [])

/-- Fixture: four items in a history of the given capacity. -/
def hist4 (cap : Nat) : History :=
  ((((mkHistory cap).NewCommand "item1").NewCommand "item2").NewCommand
    "item3").NewCommand "item4"

/-- Fixture: the `InsertionIgnoreRepeat` insertion sequence. -/
def histRep : History :=
  ["item1", "item2", "item2", "item1", "item1", "item3", "item3", "item3",
    "item1", "item1", "item1"].foldl History.NewCommand (mkHistory 10)

/-- Fixture: the first `Copies` history after loading. -/
def histL : History := (mkHistory 10).LoadCommands ["item1", "item2", "item3"]

/-- Fixture: the capacity-3 `Copies` history after loading. -/
def histM : History := (mkHistory 3).LoadCommands ["item1", "item2", "item3"]

/-- Fixture: the capacity-3 `Copies` history fed five commands. -/
def hist5 : History :=
  ["itemA", "itemB", "itemC", "itemD", "itemE"].foldl History.NewCommand
    (mkHistory 3)

/-- Replay of the `NotFull` test case of test/test_history.cpp:38-54: the
modelled history returns exactly the expected strings. -/
theorem history_test_notFull :
    (run (hist4 10) [(·.Next), (·.Previous ""), (·.Next), (·.Previous ""),
      (·.Previous "item4"), (·.Previous "item3"), (·.Previous "item2"),
      (·.Previous "item1")]).2
    = ["", "item4", "", "item4", "item3", "item2", "item1", "item1"] := by
  decide

/-- Replay of the `Full` test case of test/test_history.cpp:56-73. -/
theorem history_test_full :
    (run (hist4 3) [(·.Previous ""), (·.Next), (·.Previous ""),
      (·.Previous "item4"), (·.Previous "item3"), (·.Previous "item3"),
      (·.Previous "item3"), (·.Next), (·.Next)]).2
    = ["item4", "", "item4", "item3", "item3", "item3", "item3", "item4", ""] := by
  decide

/-- Replay of the `Insertion` test case of test/test_history.cpp:75-97. -/
theorem history_test_insertion :
    (run (hist4 10) [(·.Previous ""), (·.Previous "item4"), (·.Previous "foo"),
      (·.Next), (·.Next), (·.Previous "item4"), (·.Previous "foo"),
      (fun h => (h.NewCommand "item5", "")),
      (·.Previous ""), (·.Previous "item5"), (·.Next), (·.Next)]).2
    = ["item4", "item3", "item2", "foo", "item4", "foo", "item2", "",
       "item5", "item4", "item5", ""] := by
  decide

/-- Replay of the `InsertionIgnoreRepeat` test case of
test/test_history.cpp:99-124. -/
theorem history_test_ignoreRepeat :
    (run histRep [(·.Previous ""), (·.Previous "item1"), (·.Previous "item3"),
      (·.Previous "item1"), (·.Previous "item2"), (·.Next), (·.Next), (·.Next),
      (·.Next)]).2
    = ["item1", "item3", "item1", "item2", "item1", "item2", "item1", "item3",
       "item1"] := by
  decide

/-- Replay of the `Empty` test case of test/test_history.cpp:126-144. -/
theorem history_test_empty :
    (run (mkHistory 10) [(·.Next), (·.Previous "")]).2 = ["", ""] ∧
    (run (mkHistory 10) [(·.Previous ""), (·.Next)]).2 = ["", ""] ∧
    (run (mkHistory 10) [(·.Previous ""), (fun h => (h.NewCommand "item1", "")),
      (·.Next), (·.Previous "")]).2 = ["", "", "", "item1"] := by
  decide

/-- Replay of the `Copies` test case of test/test_history.cpp:146-205:
entries seeded by `LoadCommands` are navigable but `GetCommands` returns
only the `NewCommand`-recorded ones. -/
theorem history_test_copies :
    (run histL [(·.Previous ""), (·.Previous "item3"), (·.Previous "item2"),
      (·.Previous "item1")]).2 = ["item3", "item2", "item1", "item1"] ∧
    (run histC9 [(·.Previous ""), (·.Previous "itemB"), (·.Previous "itemA"),
      (·.Previous "item3"), (·.Previous "item2")]).2
      = ["itemB", "itemA", "item3", "item2", "item1"] ∧
    (run histM [(·.Previous ""), (·.Previous "item3"), (·.Previous "item2")]).2
      = ["item3", "item2", "item2"] ∧
    ((((run histM [(·.Previous ""), (·.Previous "item3"),
        (·.Previous "item2")]).1).NewCommand "itemA").NewCommand
        "itemB").GetCommands = ["itemA", "itemB"] ∧
    hist5.GetCommands = ["itemC", "itemD", "itemE"] := by
  decide

/-- Inserting one entry is taking the last `cap` elements of the extended
list. -/
theorem insertEntry_eq_lastN (cap : Nat) (l : List String) (x : String) :
    insertEntry cap l x = lastN cap (l ++ [x]) := by
  simp only [insertEntry, lastN]
  split
  · rfl
  · next h => rw [Nat.sub_eq_zero_of_le (Nat.le_of_not_lt h), List.drop_zero]

/-- Truncating before an insertion is the same as truncating after it. -/
theorem lastN_idem_append (cap : Nat) (l : List String) (x : String) :
    lastN cap (lastN cap l ++ [x]) = lastN cap (l ++ [x]) := by
  simp only [lastN]
  rw [← List.drop_append_of_le_length (Nat.sub_le l.length cap), List.drop_drop]
  congr 1
  simp only [List.length_append, List.length_drop, List.length_singleton]
  omega

/-- With positive capacity, the entry just inserted is the last one. -/
theorem getLast?_insertEntry (cap : Nat) (hc : 0 < cap) (l : List String)
    (x : String) : (insertEntry cap l x).getLast? = some x := by
  rw [insertEntry_eq_lastN]
  simp only [lastN, List.length_append, List.length_singleton]
  rw [List.drop_append_of_le_length (by omega)]
  exact List.getLast?_concat _

/-- Folding insertions keeps the last `cap` elements of the accumulated
list. -/
theorem foldl_insertEntry (cap : Nat) (seq : List String) :
    ∀ L, List.foldl (insertEntry cap) (lastN cap L) seq = lastN cap (L ++ seq) := by
  induction seq with
  | nil => intro L; simp
  | cons s seq ih =>
      intro L
      rw [List.foldl_cons, insertEntry_eq_lastN, lastN_idem_append,
        ← insertEntry_eq_lastN, insertEntry_eq_lastN, ih (L ++ [s])]
      congr 1
      simp

/-- Folding `NewCommand` over non-empty, adjacent-distinct texts from a
cursor-at-end state appends them all, truncated to capacity. -/
theorem foldl_newCommand (cap : Nat) (hc : 0 < cap) (ts : List String) :
    ∀ (L : List String) (n : Nat),
      (∀ t ∈ ts, t ≠ "") →
      List.Chain' (fun a b => a ≠ b) ts →
      (∀ t0, ts.head? = some t0 → (lastN cap L).getLast? ≠ some t0) →
      List.foldl History.NewCommand ⟨cap, lastN cap L, none, n⟩ ts
        = ⟨cap, lastN cap (L ++ ts), none, n + ts.length⟩ := by
  induction ts with
  | nil => intro L n _ _ _; simp
  | cons t ts ih =>
      intro L n hne hch hhd
      rw [List.foldl_cons]
      have h1 : History.NewCommand ⟨cap, lastN cap L, none, n⟩ t
          = ⟨cap, lastN cap (L ++ [t]), none, n + 1⟩ := by
        simp only [History.NewCommand]
        rw [if_neg (hne t (by simp)), if_neg (hhd t rfl),
          insertEntry_eq_lastN, lastN_idem_append]
      rw [h1]
      have hne' : ∀ t' ∈ ts, t' ≠ "" := fun t' ht' => hne t' (by simp [ht'])
      have hhd' : ∀ t0, ts.head? = some t0 →
          (lastN cap (L ++ [t])).getLast? ≠ some t0 := by
        intro t0 h0
        rw [← insertEntry_eq_lastN, getLast?_insertEntry cap hc]
        cases ts with
        | nil => simp at h0
        | cons b ts' =>
            simp only [List.head?] at h0
            have hrel : t ≠ b := (List.chain'_cons.mp hch).1
            intro hcontra
            exact hrel (by injection hcontra with h; rw [h, ← Option.some_inj.mp h0])
      rw [ih (L ++ [t]) (n + 1) hne' hch.tail hhd']
      simp [List.append_assoc]
      omega

/-- Truncating the empty list gives the empty list. -/
theorem lastN_nil (cap : Nat) : lastN cap ([] : List String) = [] := by
  simp [lastN]

/-- C7: for every capacity `c > 0` and every sequence of at least `c`
`NewCommand` calls with pairwise-distinct non-empty texts, `GetCommands`
afterwards returns exactly the last `c` texts of the sequence, oldest
first, and the stored entries never exceed the capacity (eviction removes
the oldest entries first). -/
theorem history_keeps_last_capacity (cap : Nat) (ts : List String)
    (hc : 0 < cap) (hlen : cap ≤ ts.length) (hnd : ts.Nodup)
    (hne : ∀ t ∈ ts, t ≠ "") :
    (List.foldl History.NewCommand (mkHistory cap) ts).GetCommands
        = ts.drop (ts.length - cap) ∧
    (List.foldl History.NewCommand (mkHistory cap) ts).entries.length ≤ cap := by
  have hch : List.Chain' (fun a b => a ≠ b) ts := hnd.chain'
  have hfold := foldl_newCommand cap hc ts [] 0 hne hch
    (by intro t0 _; simp [lastN])
  have hmk : mkHistory cap = ⟨cap, lastN cap [], none, 0⟩ := by
    rw [lastN_nil]; rfl
  rw [hmk, hfold, List.nil_append]
  constructor
  · simp only [History.GetCommands, lastN, List.length_drop, Nat.zero_add]
    have h1 : ts.length - (ts.length - cap) = cap := by omega
    rw [h1, Nat.min_eq_right hlen, Nat.sub_self, List.drop_zero]
  · simp only [lastN, List.length_drop]
    omega

/-- Witness for C7: capacity 2 with commands a, b, c retains exactly b, c. -/
theorem history_keeps_last_capacity_witness :
    0 < 2 ∧ 2 ≤ (["a", "b", "c"] : List String).length ∧
    (["a", "b", "c"] : List String).Nodup ∧
    (∀ t ∈ (["a", "b", "c"] : List String), t ≠ "") ∧
    (List.foldl History.NewCommand (mkHistory 2) ["a", "b", "c"]).GetCommands
      = ["b", "c"] :=
  ⟨by decide, by decide, by decide, by decide, by
    rw [(history_keeps_last_capacity 2 ["a", "b", "c"] (by decide) (by decide)
      (by decide) (by decide)).1]
    decide⟩

/-- C9 (amended): after `LoadCommands` and a sequence of `NewCommand` calls
(non-empty texts, adjacent-distinct, the first differing from the last
retained seeded entry), `GetCommands` returns exactly the last
`min(length, capacity)` `NewCommand` texts, oldest first — the seeded
entries are never returned, although navigation can still reach them. -/
theorem getCommands_returns_newCommands (cap : Nat) (seq ts : List String)
    (hc : 0 < cap) (hne : ∀ t ∈ ts, t ≠ "")
    (hch : List.Chain' (fun a b => a ≠ b) ts)
    (hhd : ∀ t0, ts.head? = some t0 → (lastN cap seq).getLast? ≠ some t0) :
    (List.foldl History.NewCommand ((mkHistory cap).LoadCommands seq) ts).GetCommands
        = ts.drop (ts.length - cap) := by
  have hload : (mkHistory cap).LoadCommands seq = ⟨cap, lastN cap seq, none, 0⟩ := by
    simp only [History.LoadCommands, mkHistory]
    have h0 := foldl_insertEntry cap seq []
    rw [lastN_nil, List.nil_append] at h0
    rw [h0]
  rw [hload, foldl_newCommand cap hc ts seq 0 hne hch hhd]
  simp only [History.GetCommands, lastN, List.length_drop, Nat.zero_add,
    List.length_append]
  rw [List.drop_drop]
  have harith : seq.length + ts.length - cap +
      (seq.length + ts.length - (seq.length + ts.length - cap) -
        min ts.length (seq.length + ts.length - (seq.length + ts.length - cap)))
      = seq.length + (ts.length - cap) := by omega
  rw [harith, List.drop_append]

/-- Witness for C9 (amended): capacity 2, one seeded entry, three new
commands — only the last two new texts are returned. -/
theorem getCommands_returns_newCommands_witness :
    0 < 2 ∧ (∀ t ∈ (["a", "b", "c"] : List String), t ≠ "") ∧
    List.Chain' (fun a b => a ≠ b) (["a", "b", "c"] : List String) ∧
    (∀ t0, (["a", "b", "c"] : List String).head? = some t0 →
      (lastN 2 ["x"]).getLast? ≠ some t0) ∧
    (List.foldl History.NewCommand ((mkHistory 2).LoadCommands ["x"])
      ["a", "b", "c"]).GetCommands = ["b", "c"] :=
  ⟨by decide, by decide,
   (List.chain'_cons.mpr ⟨by decide, List.chain'_cons.mpr
     ⟨by decide, List.chain'_singleton _⟩⟩), by decide, by
    rw [getCommands_returns_newCommands 2 ["x"] ["a", "b", "c"] (by decide)
      (by decide) (List.chain'_cons.mpr ⟨by decide, List.chain'_cons.mpr
        ⟨by decide, List.chain'_singleton _⟩⟩) (by decide)]
    decide⟩

/-- Counterexample to C9 as stated: on the `Copies` trace, `Previous`
navigation still reaches the `LoadCommands`-seeded entry `"item1"`, which
is retained in `entries` and was never evicted, yet `GetCommands` returns
only the two `NewCommand`-recorded entries. -/
theorem getCommands_omits_loaded_cex :
    histC9.GetCommands = ["itemA", "itemB"] ∧
    c9nav.2 = "item1" ∧
    "item1" ∉ histC9.GetCommands ∧
    "item1" ∈ histC9.entries := by decide

/-- C2: on history `[item1, item2, item3, item4]` with the cursor past the
end, `Previous("")`, `Previous("item4")`, `Previous("foo")` return
`item4`, `item3`, `item2`, splicing the literal `"foo"` into the slot the
cursor leaves (item3's slot), and the two following `Next` calls return
`"foo"` and then `"item4"`. -/
theorem history_splice_trace :
    c2s1.2 = "item4" ∧ c2s2.2 = "item3" ∧ c2s3.2 = "item2" ∧
    c2s4.2 = "foo" ∧ c2s5.2 = "item4" ∧
    c2s3.1.entries = ["item1", "item2", "foo", "item4", ""] := by decide

/-- Counterexample to C8 as stated: after `NewCommand("a")`,
`NewCommand("b")`, `Previous("")`, `Previous("a")`, the splice leaves two
adjacent equal stored entries `"a", "a"`, which `GetCommands` also
returns, so the invariant "no two adjacent stored entries are ever equal
after any operation sequence" fails. -/
theorem adjacent_duplicate_after_splice_cex :
    histC8.entries = ["a", "a", ""] ∧
    histC8.GetCommands = ["a", "a"] ∧
    histC8.GetCommands.getD 0 "" = histC8.GetCommands.getD 1 "?" := by decide

/-- The cursor is reset past-the-end by every `NewCommand` call. -/
theorem newCommand_cursor_none (h : History) (t : String) :
    (h.NewCommand t).cursor = none := by
  simp only [History.NewCommand]
  split <;> [rfl; split <;> rfl]

/-- After storing a non-empty text, it is the most recent entry. -/
theorem newCommand_getLast (h : History) (t : String)
    (hc : 0 < h.capacity) (ht : t ≠ "") :
    (h.NewCommand t).entries.getLast? = some t := by
  simp only [History.NewCommand]
  rw [if_neg ht]
  split
  · next heq => exact heq
  · exact getLast?_insertEntry h.capacity hc _ t

/-- C8 (amended): calling `NewCommand(text)` twice in a row stores the text
at most once — the second call leaves the entries unchanged — and repeats
separated by a different entry are all retained in order (the three calls
`t`, `u`, `t` leave the suffix `[t, u, t]`); the further invariant of the
claim, that no two adjacent stored entries are ever equal after any
operation sequence, does not hold because `Previous` splices the edit text
in place (see the counterexample). -/
theorem newCommand_dedup (h : History) (t u : String)
    (hc : 0 < h.capacity) (ht : t ≠ "") :
    ((h.NewCommand t).NewCommand t).entries = (h.NewCommand t).entries ∧
    (h.cursor = none → h.entries.getLast? ≠ some t → u ≠ "" → u ≠ t →
      ((((h.NewCommand t).NewCommand u).NewCommand t).entries
          = lastN h.capacity (h.entries ++ [t, u, t])) ∧
      (3 ≤ h.capacity →
        [t, u, t] <:+ (((h.NewCommand t).NewCommand u).NewCommand t).entries)) := by
  constructor
  · conv_lhs => rw [History.NewCommand]
    rw [newCommand_cursor_none]
    rw [if_neg ht, if_pos (newCommand_getLast h t hc ht)]
  · intro hcur hlast hu hut
    have h1 : h.NewCommand t
        = ⟨h.capacity, insertEntry h.capacity h.entries t, none, h.newCount + 1⟩ := by
      simp only [History.NewCommand, hcur]
      rw [if_neg ht, if_neg hlast]
    have h2 : (h.NewCommand t).NewCommand u
        = ⟨h.capacity, lastN h.capacity (h.entries ++ [t, u]), none,
            h.newCount + 2⟩ := by
      rw [h1]
      simp only [History.NewCommand]
      rw [if_neg hu, if_neg (by
        rw [getLast?_insertEntry h.capacity hc]
        intro hx
        exact hut (Option.some_inj.mp hx).symm)]
      rw [insertEntry_eq_lastN, insertEntry_eq_lastN, lastN_idem_append,
        List.append_assoc]
      rfl
    have h3 : (((h.NewCommand t).NewCommand u).NewCommand t).entries
        = lastN h.capacity (h.entries ++ [t, u, t]) := by
      rw [h2]
      simp only [History.NewCommand]
      rw [if_neg ht, if_neg (by
        have hgl : (lastN h.capacity (h.entries ++ [t, u])).getLast? = some u := by
          rw [show h.entries ++ [t, u] = (h.entries ++ [t]) ++ [u] by simp,
            ← insertEntry_eq_lastN, getLast?_insertEntry h.capacity hc]
        rw [hgl]
        intro hx
        exact hut (Option.some_inj.mp hx))]
      rw [insertEntry_eq_lastN, lastN_idem_append,
        show (h.entries ++ [t, u]) ++ [t] = h.entries ++ [t, u, t] by simp]
    refine ⟨h3, fun hc3 => ?_⟩
    rw [h3]
    simp only [lastN, List.length_append]
    rw [List.drop_append_of_le_length (by simp; omega)]
    exact List.suffix_append _ _

/-- Witness for C8 (amended): capacity 5 with texts x, y. -/
theorem newCommand_dedup_witness :
    (((mkHistory 5).NewCommand "x").NewCommand "x").entries
        = ((mkHistory 5).NewCommand "x").entries ∧
    ["x", "y", "x"] <:+
      ((((mkHistory 5).NewCommand "x").NewCommand "y").NewCommand "x").entries :=
  ⟨(newCommand_dedup (mkHistory 5) "x" "y" (by decide) (by decide)).1,
   ((newCommand_dedup (mkHistory 5) "x" "y" (by decide) (by decide)).2 rfl
      (by decide) (by decide) (by decide)).2 (by decide)⟩

/-- The child loop of `Menu::Exec` fails exactly when every child fails. -/
theorem execList_none_iff (cs : List Cmd) :
    ∀ (i : Nat) (p : List Nat) (line : List String) (cur : List Nat),
      Cmd.execList cs i p line cur = none ↔
        ∀ k, (hk : k < cs.length) →
          Cmd.execAt cs[k] (p ++ [i + k]) line cur = none := by
  induction cs with
  | nil => intro i p line cur; simp [Cmd.execList]
  | cons c rest ih =>
      intro i p line cur
      rw [Cmd.execList]
      cases hE : Cmd.execAt c (p ++ [i]) line cur with
      | some q =>
          simp only []
          constructor
          · intro hcontra; cases hcontra
          · intro hall
            have h0 := hall 0 (by simp)
            simp only [List.getElem_cons_zero, Nat.add_zero, hE] at h0
            exact h0
      | none =>
          simp only [ih (i + 1) p line cur]
          constructor
          · intro hall k hk
            cases k with
            | zero => simpa using hE
            | succ k' =>
                have h1 := hall k' (by simpa using Nat.lt_of_succ_lt_succ hk)
                simp only [List.getElem_cons_succ]
                have hidx : i + (k' + 1) = (i + 1) + k' := by omega
                rw [hidx]
                exact h1
          · intro hall k' hk'
            have h1 := hall (k' + 1) (by simpa using Nat.succ_lt_succ hk')
            simp only [List.getElem_cons_succ] at h1
            have hidx : (i + 1) + k' = i + (k' + 1) := by omega
            rw [hidx]
            exact h1

/-- The child loop of `Menu::Exec` succeeds exactly at the first matching
child, in insertion order. -/
theorem execList_some_iff (cs : List Cmd) :
    ∀ (i : Nat) (p : List Nat) (line : List String) (cur q : List Nat),
      Cmd.execList cs i p line cur = some q ↔
        ∃ k, ∃ hk : k < cs.length,
          Cmd.execAt cs[k] (p ++ [i + k]) line cur = some q ∧
          ∀ j, (hj : j < k) →
            Cmd.execAt cs[j] (p ++ [i + j]) line cur = none := by
  induction cs with
  | nil => intro i p line cur q; simp [Cmd.execList]
  | cons c rest ih =>
      intro i p line cur q
      rw [Cmd.execList]
      cases hE : Cmd.execAt c (p ++ [i]) line cur with
      | some q' =>
          simp only []
          constructor
          · intro hq
            refine ⟨0, by simp, ?_, ?_⟩
            · simpa [hE] using hq
            · intro j hj; cases hj
          · rintro ⟨k, hk, hsome, hall⟩
            cases k with
            | zero => simpa [hE] using hsome
            | succ k' =>
                have h0 := hall 0 (Nat.succ_pos k')
                simp only [List.getElem_cons_zero, Nat.add_zero, hE] at h0
                exact Option.noConfusion h0
      | none =>
          simp only [ih (i + 1) p line cur q]
          constructor
          · rintro ⟨k, hk, hsome, hall⟩
            refine ⟨k + 1, by simpa using Nat.succ_lt_succ hk, ?_, ?_⟩
            · simp only [List.getElem_cons_succ]
              have hidx : i + (k + 1) = (i + 1) + k := by omega
              rw [hidx]
              exact hsome
            · intro j hj
              cases j with
              | zero => simpa using hE
              | succ j' =>
                  simp only [List.getElem_cons_succ]
                  have hidx : i + (j' + 1) = (i + 1) + j' := by omega
                  rw [hidx]
                  exact hall j' (Nat.lt_of_succ_lt_succ hj)
          · rintro ⟨k, hk, hsome, hall⟩
            cases k with
            | zero =>
                simp only [List.getElem_cons_zero, Nat.add_zero, hE] at hsome
                exact Option.noConfusion hsome
            | succ k' =>
                refine ⟨k', Nat.lt_of_succ_lt_succ (by simpa using hk), ?_, ?_⟩
                · simp only [List.getElem_cons_succ] at hsome
                  have hidx : i + (k' + 1) = (i + 1) + k' := by omega
                  rw [hidx] at hsome
                  exact hsome
                · intro j hj
                  have h1 := hall (j + 1) (Nat.succ_lt_succ hj)
                  simp only [List.getElem_cons_succ] at h1
                  have hidx : i + (j + 1) = (i + 1) + j := by omega
                  rw [hidx] at h1
                  exact h1

/-- C3: a `Menu::Exec` on a disabled menu, or on a line whose first token
differs from the name, returns false without consulting anything; when
enabled and matching, a single-token line makes the menu the session's
current menu and returns true, and a longer line drops the first token and
offers the remainder to the children in insertion order, succeeding exactly
at the first matching child and failing exactly when all children fail. -/
theorem menu_exec_dispatch (n d : String) (cs : List Cmd) (p cur : List Nat) :
    (∀ line, Cmd.execAt (.menu n false d cs) p line cur = none) ∧
    (∀ (e : Bool) (line : List String), line.head? ≠ some n →
        Cmd.execAt (.menu n e d cs) p line cur = none) ∧
    Cmd.execAt (.menu n true d cs) p [n] cur = some p ∧
    (∀ t ts, Cmd.execAt (.menu n true d cs) p (n :: t :: ts) cur
        = Cmd.execList cs 0 p (t :: ts) cur) ∧
    (∀ line q, Cmd.execList cs 0 p line cur = some q ↔
        ∃ k, ∃ hk : k < cs.length,
          Cmd.execAt cs[k] (p ++ [k]) line cur = some q ∧
          ∀ j, (hj : j < k) → Cmd.execAt cs[j] (p ++ [j]) line cur = none) ∧
    (∀ line, Cmd.execList cs 0 p line cur = none ↔
        ∀ k, (hk : k < cs.length) → Cmd.execAt cs[k] (p ++ [k]) line cur = none) := by
  refine ⟨?_, ?_, ?_, ?_, ?_, ?_⟩
  · intro line; rw [Cmd.execAt]; simp
  · intro e line hh
    rw [Cmd.execAt, if_neg]
    rintro ⟨-, h2⟩
    exact hh h2
  · rw [Cmd.execAt]; simp
  · intro t ts; rw [Cmd.execAt]; simp
  · intro line q
    simpa using execList_some_iff cs 0 p line cur q
  · intro line
    simpa using execList_none_iff cs 0 p line cur

/-- Witness for C3: a small menu with one child. -/
theorem menu_exec_dispatch_witness :
    Cmd.execAt (.menu "m" true "" [cmdLeaf]) [] ["x"] [] = none ∧
    Cmd.execAt (.menu "m" true "" [cmdLeaf]) [] ["m"] [] = some [] ∧
    Cmd.execAt (.menu "m" true "" [cmdLeaf]) [] ["m", "cmd"] []
      = Cmd.execList [cmdLeaf] 0 [] ["cmd"] [] :=
  ⟨(menu_exec_dispatch "m" "" [cmdLeaf] [] []).2.1 true ["x"] (by decide),
   (menu_exec_dispatch "m" "" [cmdLeaf] [] []).2.2.1,
   (menu_exec_dispatch "m" "" [cmdLeaf] [] []).2.2.2.1 "cmd" []⟩

/-- C4: `Menu::ScanCmds` on an enabled current menu returns the first
matching immediate child's result against the full token list; when no
child matches it delegates the same token list to the parent menu's `Exec`
(full-tree matching) and at the root it returns false.  On the tree
`root → "sub"(child "cmd")`: `"sub cmd"` matches at the root, `"cmd"`
matches when the current menu is `"sub"`, and `"cmd"` does not match when
the current menu is the root. -/
theorem scanCmds_dispatch (root : Cmd) (cur cur0 : List Nat) (line : List String)
    (n d : String) (cs : List Cmd)
    (hnode : root.nodeAt cur = some (.menu n true d cs)) :
    (∀ q, Cmd.execList cs 0 cur line cur0 = some q →
        scanAt root cur line cur0 = some q) ∧
    (Cmd.execList cs 0 cur line cur0 = none → cur = [] →
        scanAt root cur line cur0 = none) ∧
    (∀ i is pm, cur = i :: is → Cmd.execList cs 0 cur line cur0 = none →
        root.nodeAt cur.dropLast = some pm →
        scanAt root cur line cur0 = Cmd.execAt pm cur.dropLast line cur0) ∧
    scanAt rootMenu [] ["sub", "cmd"] [] = some [] ∧
    scanAt rootMenu [0] ["cmd"] [0] = some [0] ∧
    scanAt rootMenu [] ["cmd"] [] = none := by
  refine ⟨?_, ?_, ?_, by decide, by decide, by decide⟩
  · intro q hq
    rw [scanAt.eq_def, hnode]
    simp [hq]
  · intro hnone hcur
    subst hcur
    rw [scanAt.eq_def, hnode]
    simp [hnone]
  · intro i is pm hcur hnone hpm
    subst hcur
    rw [scanAt.eq_def, hnode]
    simp [hnone, hpm]

/-- Witness for C4: child match from the "sub" menu, and parent delegation
for the token "root". -/
theorem scanCmds_dispatch_witness :
    scanAt rootMenu [0] ["cmd"] [0] = some [0] ∧
    scanAt rootMenu [0] ["root"] [0] = Cmd.execAt rootMenu [] ["root"] [0] :=
  ⟨(scanCmds_dispatch rootMenu [0] [0] ["cmd"] "sub" "(menu)" [cmdLeaf] rfl).1
      [0] (by decide),
   (scanCmds_dispatch rootMenu [0] [0] ["root"] "sub" "(menu)" [cmdLeaf] rfl).2.2.1
      0 [] rootMenu rfl (by decide) rfl⟩

/-- C5: a leaf command whose first token equals its name but whose token
count differs from the declared parameter count plus one, or whose
remaining tokens fail the argument conversion, reports not matched (its
`Exec` returns false, never an error), indistinguishable from a wrong
name. -/
theorem leaf_exec_bad_args (n : String) (e : Bool) (k : Nat)
    (conv : List String → Bool) (d : String) (pds : List String)
    (line : List String) (p cur : List Nat)
    (hname : line.head? = some n)
    (hbad : line.length ≠ k + 1 ∨ conv line.tail = false) :
    Cmd.execAt (.leaf n e k conv d pds) p line cur = none := by
  have hn := hname
  rw [Cmd.execAt, if_neg]
  rintro ⟨-, hlen, -, hconv⟩
  rcases hbad with hb | hb
  · exact hb hlen
  · rw [hconv] at hb
    exact absurd hb (by decide)

/-- Witness for C5: the one-parameter command "go" with a failing
conversion and with a wrong token count. -/
theorem leaf_exec_bad_args_witness :
    Cmd.execAt (.leaf "go" true 1 (fun a => a == ["ok"]) "" []) [] ["go", "bad"] []
      = none ∧
    Cmd.execAt (.leaf "go" true 1 (fun a => a == ["ok"]) "" []) [] ["go", "x", "y"] []
      = none :=
  ⟨leaf_exec_bad_args "go" true 1 (fun a => a == ["ok"]) "" [] ["go", "bad"] [] []
      (by decide) (Or.inr (by decide)),
   leaf_exec_bad_args "go" true 1 (fun a => a == ["ok"]) "" [] ["go", "x", "y"] [] []
      (by decide) (Or.inl (by decide))⟩

/-- Enabling or disabling through a handle whose node is gone changes
nothing. -/
theorem hSetEnabled_absent (l : List HEntry) (hid : Nat) (b : Bool)
    (habs : ∀ e ∈ l, e.id ≠ hid) :
    hSetEnabled (some l) hid b = some l := by
  simp only [hSetEnabled]
  congr 1
  induction l with
  | nil => rfl
  | cons e es ih =>
      simp only [List.map_cons]
      rw [if_neg (habs e (by simp)),
        ih (fun e' he' => habs e' (by simp [he']))]

/-- Removing through a handle whose node is gone changes nothing. -/
theorem hRemove_absent (l : List HEntry) (hid : Nat)
    (habs : ∀ e ∈ l, e.id ≠ hid) :
    hRemove (some l) hid = some l := by
  simp only [hRemove]
  rw [if_neg]
  rw [List.find?_eq_none.mpr (fun x hx => by simpa using habs x hx)]
  simp

/-- Erasing the first entry with a given identity, when the preceding
entries have different identities, removes exactly that entry. -/
theorem removeFirst_append (l1 l2 : List HEntry) (hid : Nat) (c : Cmd)
    (h1 : ∀ e ∈ l1, e.id ≠ hid) :
    removeFirst (l1 ++ ⟨hid, c⟩ :: l2) hid = l1 ++ l2 := by
  induction l1 with
  | nil => simp [removeFirst]
  | cons e es ih =>
      simp only [List.cons_append, removeFirst]
      rw [if_neg (h1 e (by simp))]
      exact congrArg (e :: ·) (ih (fun e' he' => h1 e' (by simp [he'])))

/-- C6: every handle operation on a destroyed collection or on an identity
no longer present is a no-op leaving the collection unchanged (and, being a
total function, never throws); `Remove` on a live handle erases exactly the
referenced entry from its collection, after which every further handle
operation on that identity is permanently inert. -/
theorem handle_lifecycle (l l1 l2 : List HEntry) (hid : Nat) (c : Cmd) (b : Bool) :
    (hSetEnabled none hid b = none ∧ hRemove none hid = none) ∧
    ((∀ e ∈ l, e.id ≠ hid) →
        hSetEnabled (some l) hid b = some l ∧ hRemove (some l) hid = some l) ∧
    (l = l1 ++ ⟨hid, c⟩ :: l2 → (∀ e ∈ l1, e.id ≠ hid) → (∀ e ∈ l2, e.id ≠ hid) →
        hRemove (some l) hid = some (l1 ++ l2) ∧
        hSetEnabled (some (l1 ++ l2)) hid b = some (l1 ++ l2) ∧
        hRemove (some (l1 ++ l2)) hid = some (l1 ++ l2)) := by
  refine ⟨⟨rfl, rfl⟩, ?_, ?_⟩
  · intro habs
    exact ⟨hSetEnabled_absent l hid b habs, hRemove_absent l hid habs⟩
  · intro hl h1 h2
    subst hl
    have habs : ∀ e ∈ l1 ++ l2, e.id ≠ hid := by
      intro e he
      rcases List.mem_append.mp he with h | h
      · exact h1 e h
      · exact h2 e h
    refine ⟨?_, hSetEnabled_absent _ hid b habs, hRemove_absent _ hid habs⟩
    simp only [hRemove]
    rw [if_pos, removeFirst_append l1 l2 hid c h1]
    exact List.find?_isSome.mpr ⟨⟨hid, c⟩, by simp, by simp⟩

/-- Witness for C6: a three-entry collection; removing identity 5 erases
exactly its entry, a second removal does nothing, and operations on a dead
collection do nothing. -/
theorem handle_lifecycle_witness :
    hRemove (some [⟨1, cmdLeaf⟩, ⟨5, cmdLeaf⟩, ⟨2, cmdLeaf⟩]) 5
      = some [⟨1, cmdLeaf⟩, ⟨2, cmdLeaf⟩] ∧
    hRemove (some [⟨1, cmdLeaf⟩, ⟨2, cmdLeaf⟩]) 5
      = some [⟨1, cmdLeaf⟩, ⟨2, cmdLeaf⟩] ∧
    hSetEnabled none 5 true = none :=
  ⟨((handle_lifecycle [⟨1, cmdLeaf⟩, ⟨5, cmdLeaf⟩, ⟨2, cmdLeaf⟩]
      [⟨1, cmdLeaf⟩] [⟨2, cmdLeaf⟩] 5 cmdLeaf true).2.2 rfl
      (by intro e he; simp at he; simp [he])
      (by intro e he; simp at he; simp [he])).1,
   ((handle_lifecycle [⟨1, cmdLeaf⟩, ⟨5, cmdLeaf⟩, ⟨2, cmdLeaf⟩]
      [⟨1, cmdLeaf⟩] [⟨2, cmdLeaf⟩] 5 cmdLeaf true).2.2 rfl
      (by intro e he; simp at he; simp [he])
      (by intro e he; simp at he; simp [he])).2.2,
   (handle_lifecycle [] [] [] 5 cmdLeaf true).1.1⟩

/-- C1 (evaluation of the code at the failing input): the disabled menu
`"sub"` with enabled child `"cmd"` produces no dispatch match for lines
addressed to it or its descendant, no scan match, no help output, and no
completions for the partial `"su"`; it stays present and regains dispatch,
help and completions after `Enable`.  However, contrary to the claim, the
completion query `"sub"` — a line starting with the disabled menu's name —
still returns `["sub cmd"]`, because `Menu::GetCompletionRecursive`
(cli.h:518-536) omits the `IsEnabled` check on that branch, unlike the
`Command` base class (cli.h:240-245). -/
theorem disabled_menu_visibility :
    disabledSub.enabled = false ∧
    Cmd.execAt disabledSub [] ["sub"] [] = none ∧
    Cmd.execAt disabledSub [] ["sub", "cmd"] [] = none ∧
    scanAt disabledSub [] ["cmd"] [] = none ∧
    disabledSub.Help = [] ∧
    mainHelpAt disabledSub [] = [] ∧
    Cmd.GetCompletionRecursive disabledSub "su" = [] ∧
    Cmd.GetCompletionRecursive disabledSub "sub" = ["sub cmd"] ∧
    (disabledSub.setEnabled true).enabled = true ∧
    Cmd.execAt (disabledSub.setEnabled true) [] ["sub", "cmd"] [] = some [] ∧
    (disabledSub.setEnabled true).Help = [" - sub\n\t(menu)\n"] := by decide

/-- C10: `CliSession::Feed` on a line whose whitespace tokenization yields
no tokens returns with no side effect at all (nothing recorded, nothing
dispatched, nothing written); otherwise the dispatch part, and hence
`Menu::ScanCmds` and `Menu::Exec`, receive the non-empty token list
`t :: ts`, so the unguarded access to the first token is in bounds. -/
theorem feed_requires_tokens (glob root : Cmd) (st : SessionState) (cmd : String) :
    (splitTokens cmd = [] → feed glob root st cmd = st) ∧
    (splitTokens cmd ≠ [] → ∃ t ts, splitTokens cmd = t :: ts ∧
        feed glob root st cmd = feedTokens glob root st cmd (t :: ts)) := by
  constructor
  · intro h; simp [feed, h]
  · intro h
    cases hs : splitTokens cmd with
    | nil => exact absurd hs h
    | cons t ts => exact ⟨t, ts, rfl, by simp [feed, hs]⟩

/-- Witness for C10: feeding a whitespace-only line changes nothing. -/
theorem feed_requires_tokens_witness :
    feed rootMenu rootMenu ⟨[], mkHistory 5, []⟩ " \t " = ⟨[], mkHistory 5, []⟩ ∧
    splitTokens "sub cmd" = ["sub", "cmd"] :=
  ⟨(feed_requires_tokens rootMenu rootMenu ⟨[], mkHistory 5, []⟩ " \t ").1
      (by decide),
   by decide⟩

end cli
